import Mathlib

/-!
Shallow embedding of the quadmat test-matrix generator scripts
(`gen/gen/matrix_generators.py`, `gen/gen/multiply_problem_generators.py`,
`gen/gen/medium_test_generators.py`).

The generators build `scipy.sparse.csc_matrix((vals, (rows, cols)), shape)`
objects from parallel coordinate/value sequences.  Per scipy's documented
semantics, that constructor consolidates repeated `(row, col)` coordinates by
summing their values, so the stored entry list of the resulting matrix has
pairwise-distinct coordinates.  We model a sparse matrix as its shape plus the
consolidated entry list, and model the csc constructor (`cscFromCOO`) as
"deduplicate the coordinates, attach to each the sum of the values supplied
for it".

Random inputs (`np.random.randint` samples, `np.random.permutation`) are
modelled as explicit parameters constrained by the hypotheses that the numpy
calls guarantee (index bounds, permutation of `range n`).
-/

/-- A scipy csc matrix, reduced to what the generators observe: a shape and the
stored entries, one `((row, col), value)` item per stored coordinate. -/
structure SparseMatrix where
  shape : Nat × Nat
  entries : List ((Nat × Nat) × Int)
  deriving DecidableEq, Repr

/-- Total value contributed to coordinate `p` by a coordinate/value triple
list: the sum of the values of the triples whose coordinate is `p`. -/
def cooValue (l : List ((Nat × Nat) × Int)) (p : Nat × Nat) : Int :=
  ((l.filter (fun t => t.1 = p)).map (fun t => t.2)).sum

/-- The dense reading of a sparse matrix: the value stored at `(i, j)`
(summing stored entries at that coordinate, of which there is at most one for
matrices built by `cscFromCOO`). -/
def SparseMatrix.toFun (M : SparseMatrix) (i j : Nat) : Int :=
  cooValue M.entries (i, j)

/-- `scipy.sparse.csc_matrix((vals, (rows, cols)), shape)`: consolidate the
coordinate/value triples, keeping one entry per distinct coordinate whose
value is the sum of that coordinate's contributions. -/
def cscFromCOO (triples : List ((Nat × Nat) × Int)) (shape : Nat × Nat) :
    SparseMatrix :=
  ⟨shape, ((triples.map Prod.fst).dedup).map (fun p => (p, cooValue triples p))⟩

/-- Number of stored entries (scipy `nnz`). -/
def SparseMatrix.nnz (M : SparseMatrix) : Nat :=
  M.entries.length

/-- Number of stored entries in row `i`. -/
def SparseMatrix.rowNnz (M : SparseMatrix) (i : Nat) : Nat :=
  (M.entries.filter (fun e => e.1.1 == i)).length

/-- Number of stored entries in column `j`. -/
def SparseMatrix.colNnz (M : SparseMatrix) (j : Nat) : Nat :=
  (M.entries.filter (fun e => e.1.2 == j)).length

/-- Stored coordinate list of a matrix. -/
def SparseMatrix.coords (M : SparseMatrix) : List (Nat × Nat) :=
  M.entries.map Prod.fst

/-- scipy `transpose`: swap the shape and every stored coordinate. -/
def SparseMatrix.transpose (M : SparseMatrix) : SparseMatrix :=
  ⟨(M.shape.2, M.shape.1), M.entries.map (fun e => ((e.1.2, e.1.1), e.2))⟩

/-- Entry `(i, j)` of the matrix product `A · B` (inner dimension read off
`A`'s column count, as in `A.dot(B)`). -/
def mulVal (A B : SparseMatrix) (i j : Nat) : Int :=
  ∑ k ∈ Finset.range A.shape.2, A.toFun i k * B.toFun k j

/-- The matrix product `A · B` as a matrix, modelling scipy's `A.dot(B)` /
`A * B` on sparse matrices (the generators treat multiply as the trusted
linear-algebra primitive; entrywise it is the standard matrix product). -/
def matMul (A B : SparseMatrix) : SparseMatrix :=
  ⟨(A.shape.1, B.shape.2),
    (List.range A.shape.1).flatMap (fun i =>
      (List.range B.shape.2).map (fun j => ((i, j), mulVal A B i j)))⟩

/-- The identity matrix of order `n`. -/
def identityM (n : Nat) : SparseMatrix :=
  ⟨(n, n), (List.range n).map (fun i => ((i, i), (1 : Int)))⟩

/-- Equality of sparse matrices as matrices: same shape and the same value at
every coordinate inside that shape. -/
def MatEq (A B : SparseMatrix) : Prop :=
  A.shape = B.shape ∧
    ∀ i < A.shape.1, ∀ j < A.shape.2, A.toFun i j = B.toFun i j

instance (A B : SparseMatrix) : Decidable (MatEq A B) := by
  unfold MatEq
  exact instDecidableAnd

/-! ### `generate_torus_matrix(dim, n_axis)` -/

/-- The `col_offsets` list of `generate_torus_matrix`: `[0]` when `dim == 0`,
else `[0, 1, -1]` followed, for each `d` in `range(1, dim)`, by
`n_axis**d - 1` and `-(n_axis**d - 1)`. -/
def torus_col_offsets (dim n_axis : Nat) : List Int :=
  if dim = 0 then [0]
  else [0, 1, -1] ++
    (List.range' 1 (dim - 1)).flatMap
      (fun d => [((n_axis : Int) ^ d - 1), -((n_axis : Int) ^ d - 1)])

/-- Column index `(i + offset) % n` with numpy/Python modulo semantics
(result in `[0, n)` for `n > 0`), as a natural number. -/
def torusCol (n : Nat) (i : Nat) (offset : Int) : Nat :=
  (((i : Int) + offset) % (n : Int)).toNat

/-- The coordinate/value triples assembled by `generate_torus_matrix`: for
each offset, a shifted copy of the main diagonal, all values `1`. -/
def torus_triples (dim n_axis : Nat) : List ((Nat × Nat) × Int) :=
  (torus_col_offsets dim n_axis).flatMap (fun offset =>
    (List.range (n_axis ^ dim)).map (fun i =>
      ((i, torusCol (n_axis ^ dim) i offset), (1 : Int))))

/-- `generate_torus_matrix(dim, n_axis)`. -/
def generate_torus_matrix (dim n_axis : Nat) : SparseMatrix :=
  cscFromCOO (torus_triples dim n_axis) (n_axis ^ dim, n_axis ^ dim)

/-! ### `generate_er_matrix(m, n, nnn, dedupe)`

`rows` and `cols` stand for the numpy sample arrays
`np.random.randint(low=0, high=m, size=nnn)` and
`np.random.randint(low=0, high=n, size=nnn)`. -/

/-- The coordinate/value triples of `generate_er_matrix`: sampled row/column
index pairs, each with value `1`. -/
def er_triples (rows cols : List Nat) : List ((Nat × Nat) × Int) :=
  (rows.zip cols).map (fun rc => (rc, (1 : Int)))

/-- `generate_er_matrix(m, n, nnn, dedupe)` given the sampled index arrays.
With `dedupe=True` the code calls `ret.sum_duplicates()` (a no-op on the
already-consolidated csc matrix) and then `ret.data.fill(1)`, overwriting
every stored value with `1`. -/
def generate_er_matrix (m n : Nat) (rows cols : List Nat) (dedupe : Bool) :
    SparseMatrix :=
  let ret := cscFromCOO (er_triples rows cols) (m, n)
  if dedupe then ⟨ret.shape, ret.entries.map (fun e => (e.1, (1 : Int)))⟩
  else ret

/-! ### `generate_permutation_matrix(n)`

`p` stands for `np.random.permutation(n)`, a shuffled copy of
`np.arange(n)`. -/

/-- `generate_permutation_matrix(n)` given the shuffled array `p`:
coordinates `(p[i], i)` for `i` in `range(n)`, all values `1`. -/
def generate_permutation_matrix (n : Nat) (p : List Nat) : SparseMatrix :=
  cscFromCOO ((List.range n).map (fun i => ((p.getD i 0, i), (1 : Int))))
    (n, n)

/-! ### `generate_submatrix_extraction(shape, divisor)` -/

/-- The ways `generate_submatrix_extraction` can raise before producing a
result: the explicit `ValueError` for non-square shapes ("only square
matrices supported", the spec's `ShapeMismatch`), and Python's
`ZeroDivisionError` from `n / divisor` when `divisor == 0`. -/
inductive SubmatrixError where
  | shapeMismatch : SubmatrixError
  | zeroDivision : SubmatrixError
  deriving DecidableEq, Repr

/-- `generate_submatrix_extraction(shape, divisor)`: check squareness, set
`k = n / divisor` (floor), and build `left` with coordinates `(i, i*divisor)`
of shape `(k, n)` and `right` with the transposed coordinates `(i*divisor, i)`
of shape `(n, k)`, all values `1`. -/
def generate_submatrix_extraction (shape : Nat × Nat) (divisor : Nat) :
    Except SubmatrixError (SparseMatrix × SparseMatrix) :=
  if shape.1 ≠ shape.2 then .error .shapeMismatch
  else if divisor = 0 then .error .zeroDivision
  else
    let n := shape.1
    let k := n / divisor
    .ok
      (cscFromCOO ((List.range k).map (fun i => ((i, i * divisor), (1 : Int))))
        (k, n),
       cscFromCOO ((List.range k).map (fun i => ((i * divisor, i), (1 : Int))))
        (n, k))

/-! ### `generate_multiply_problem` / `generate_medium_test_multiply_problem`

Both assemblers write a set of MatrixMarket files: `a.mtx` and `b.mtx`, then
either `product_ab.mtx` (when `c is None`) or `c.mtx` plus `product_abc.mtx`.
We record, for each written file, its base name, the matrix handed to
`mmwrite`, the `field` argument (`none` models Python `None`, i.e. field left
unspecified) and the `symmetry` argument. -/

/-- One `mmwrite` call: file base name, matrix, `field` argument (`none` for
Python `None`) and `symmetry` argument. -/
structure MtxFile where
  base : String
  matrix : SparseMatrix
  field : Option String
  symmetry : String
  deriving DecidableEq

/-- The `mmwrite` calls issued by `generate_multiply_problem(basedir, name,
a, b, c, ...)`, in order. -/
def generate_multiply_problem (a b : SparseMatrix) (c : Option SparseMatrix)
    (a_field b_field c_field : String) (a_symmetry b_symmetry c_symmetry : String) :
    List MtxFile :=
  [⟨"a", a, some a_field, a_symmetry⟩, ⟨"b", b, some b_field, b_symmetry⟩] ++
    match c with
    | none =>
        [⟨"product_ab", matMul a b,
          if a_field = b_field then some a_field else none, "general"⟩]
    | some cm =>
        [⟨"c", cm, some c_field, c_symmetry⟩,
         ⟨"product_abc", matMul (matMul a b) cm,
          if a_field = b_field ∧ b_field = c_field then some a_field else none,
          "general"⟩]

/-- The `mmwrite` calls issued by `generate_medium_test_multiply_problem(name,
a, b, c, gitignored, ...)`, in order (identical multiply/metadata logic; the
`gitignored` flag only prefixes the directory name). -/
def generate_medium_test_multiply_problem (a b : SparseMatrix)
    (c : Option SparseMatrix) (a_field b_field c_field : String)
    (a_symmetry b_symmetry c_symmetry : String) : List MtxFile :=
  [⟨"a", a, some a_field, a_symmetry⟩, ⟨"b", b, some b_field, b_symmetry⟩] ++
    match c with
    | none =>
        [⟨"product_ab", matMul a b,
          if a_field = b_field then some a_field else none, "general"⟩]
    | some cm =>
        [⟨"c", cm, some c_field, c_symmetry⟩,
         ⟨"product_abc", matMul (matMul a b) cm,
          if a_field = b_field ∧ b_field = c_field then some a_field else none,
          "general"⟩]

/-- The operand field kinds of an assembled problem: `a` and `b`, plus `c`
when present. -/
def operandFields (c : Option SparseMatrix) (a_field b_field c_field : String) :
    List String :=
  match c with
  | none => [a_field, b_field]
  | some _ => [a_field, b_field, c_field]

/-- A file holds the problem's product matrix iff its base name is one of the
two product file names. -/
def isProductFile (f : MtxFile) : Prop :=
  f.base = "product_ab" ∨ f.base = "product_abc"

instance (f : MtxFile) : Decidable (isProductFile f) := by
  unfold isProductFile
  exact instDecidableOr

/-! ### Basic facts about `cooValue` and `cscFromCOO` -/

theorem cooValue_nil (p : Nat × Nat) : cooValue [] p = 0 := rfl

theorem cooValue_cons (t : (Nat × Nat) × Int) (l : List ((Nat × Nat) × Int))
    (p : Nat × Nat) :
    cooValue (t :: l) p = (if t.1 = p then t.2 else 0) + cooValue l p := by
  by_cases h : t.1 = p <;> simp [cooValue, List.filter_cons, h]

theorem cooValue_singleton (t : (Nat × Nat) × Int) (p : Nat × Nat) :
    cooValue [t] p = if t.1 = p then t.2 else 0 := by
  rw [cooValue_cons, cooValue_nil, add_zero]

theorem cooValue_append (l₁ l₂ : List ((Nat × Nat) × Int)) (p : Nat × Nat) :
    cooValue (l₁ ++ l₂) p = cooValue l₁ p + cooValue l₂ p := by
  simp [cooValue, List.filter_append]

theorem cooValue_flatMap {α : Type} (f : α → List ((Nat × Nat) × Int))
    (l : List α) (p : Nat × Nat) :
    cooValue (l.flatMap f) p = (l.map (fun a => cooValue (f a) p)).sum := by
  induction l with
  | nil => rfl
  | cons a t ih => simp [List.flatMap_cons, cooValue_append, ih]

theorem cooValue_eq_zero_of_not_mem (l : List ((Nat × Nat) × Int))
    (p : Nat × Nat) (h : p ∉ l.map Prod.fst) : cooValue l p = 0 := by
  induction l with
  | nil => rfl
  | cons t l ih =>
      simp only [List.map_cons, List.mem_cons] at h
      push_neg at h
      rw [cooValue_cons, ih h.2, if_neg (fun hc => h.1 hc.symm), add_zero]

theorem cooValue_keys_map (ks : List (Nat × Nat)) (f : Nat × Nat → Int)
    (q : Nat × Nat) :
    cooValue (ks.map (fun p => (p, f p))) q = (ks.count q : Int) * f q := by
  induction ks with
  | nil => simp [cooValue_nil]
  | cons k ks ih =>
      rw [List.map_cons, cooValue_cons, ih, List.count_cons]
      by_cases h : k = q
      · subst h
        simp [add_mul]
        ring
      · simp [h]

theorem count_eq_one_of_nodup_mem {l : List (Nat × Nat)} (h : l.Nodup)
    {a : Nat × Nat} (ha : a ∈ l) : l.count a = 1 := by
  induction l with
  | nil => cases ha
  | cons b t ih =>
      rw [List.count_cons]
      rcases List.mem_cons.mp ha with rfl | hmem
      · rw [List.count_eq_zero_of_not_mem (List.nodup_cons.mp h).1]
        simp
      · have hb : b ≠ a := fun hc => (List.nodup_cons.mp h).1 (hc ▸ hmem)
        rw [ih (List.nodup_cons.mp h).2 hmem]
        simp [hb]

/-- The key builder fact: the dense reading of a csc matrix built from
coordinate/value triples is the total value the triples contribute at each
coordinate (scipy's duplicate-summing construction). -/
theorem cscFromCOO_toFun (triples : List ((Nat × Nat) × Int))
    (shape : Nat × Nat) (i j : Nat) :
    (cscFromCOO triples shape).toFun i j = cooValue triples (i, j) := by
  unfold cscFromCOO SparseMatrix.toFun
  rw [cooValue_keys_map]
  by_cases h : (i, j) ∈ triples.map Prod.fst
  · have hmem : (i, j) ∈ (triples.map Prod.fst).dedup := List.mem_dedup.mpr h
    have hnd : ((triples.map Prod.fst).dedup).Nodup := List.nodup_dedup _
    rw [count_eq_one_of_nodup_mem hnd hmem]
    simp
  · have hmem : (i, j) ∉ (triples.map Prod.fst).dedup := fun hc =>
      h (List.mem_dedup.mp hc)
    rw [List.count_eq_zero_of_not_mem hmem,
      cooValue_eq_zero_of_not_mem _ _ h]
    simp

theorem cscFromCOO_shape (triples : List ((Nat × Nat) × Int))
    (shape : Nat × Nat) : (cscFromCOO triples shape).shape = shape := rfl

/-- Stored coordinates of a built matrix are the distinct triple
coordinates. -/
theorem cscFromCOO_coords (triples : List ((Nat × Nat) × Int))
    (shape : Nat × Nat) :
    (cscFromCOO triples shape).coords = (triples.map Prod.fst).dedup := by
  show ((triples.map Prod.fst).dedup.map (fun p => (p, cooValue triples p))).map
      Prod.fst = (triples.map Prod.fst).dedup
  rw [List.map_map]
  exact List.map_id _

/-- Stored coordinates of a built matrix are pairwise distinct. -/
theorem cscFromCOO_coords_nodup (triples : List ((Nat × Nat) × Int))
    (shape : Nat × Nat) : (cscFromCOO triples shape).coords.Nodup := by
  rw [cscFromCOO_coords]
  exact List.nodup_dedup _

theorem mem_cscFromCOO_coords (triples : List ((Nat × Nat) × Int))
    (shape : Nat × Nat) (p : Nat × Nat) :
    p ∈ (cscFromCOO triples shape).coords ↔ p ∈ triples.map Prod.fst := by
  rw [cscFromCOO_coords]
  exact List.mem_dedup

/-! ### Closed forms for range-indexed triple lists -/

/-- Triples whose row is the running index: value at `(a, b)` is the `a`-th
value when `a` is in range and its column matches. -/
theorem cooValue_range_fstIdx (c : Nat → Nat) (v : Nat → Int) (a b : Nat) :
    ∀ k, cooValue ((List.range k).map (fun i => ((i, c i), v i))) (a, b)
      = if a < k ∧ c a = b then v a else 0 := by
  intro k
  induction k with
  | zero => simp [cooValue_nil]
  | succ k ih =>
      rw [List.range_succ, List.map_append, cooValue_append, ih,
        List.map_singleton, cooValue_singleton]
      by_cases hak : a = k
      · subst hak
        by_cases hc : c a = b <;> simp [hc, Prod.ext_iff]
      · by_cases hak' : a < k <;> by_cases hc : c a = b <;>
          simp [hak', hc, Prod.ext_iff, Ne.symm hak] <;> omega

/-- Triples whose column is the running index: value at `(a, b)` is the `b`-th
value when `b` is in range and its row matches. -/
theorem cooValue_range_sndIdx (r : Nat → Nat) (v : Nat → Int) (a b : Nat) :
    ∀ k, cooValue ((List.range k).map (fun i => ((r i, i), v i))) (a, b)
      = if b < k ∧ r b = a then v b else 0 := by
  intro k
  induction k with
  | zero => simp [cooValue_nil]
  | succ k ih =>
      rw [List.range_succ, List.map_append, cooValue_append, ih,
        List.map_singleton, cooValue_singleton]
      by_cases hbk : b = k
      · subst hbk
        by_cases hc : r b = a <;> simp [hc, Prod.ext_iff]
      · by_cases hbk' : b < k <;> by_cases hc : r b = a <;>
          simp [hbk', hc, Prod.ext_iff, Ne.symm hbk] <;> omega

/-- Triples with a fixed row and the column as running index. -/
theorem cooValue_range_constFst (r₀ : Nat) (v : Nat → Int) (a b : Nat) :
    ∀ k, cooValue ((List.range k).map (fun j => ((r₀, j), v j))) (a, b)
      = if a = r₀ ∧ b < k then v b else 0 := by
  intro k
  induction k with
  | zero => simp [cooValue_nil]
  | succ k ih =>
      rw [List.range_succ, List.map_append, cooValue_append, ih,
        List.map_singleton, cooValue_singleton]
      by_cases hbk : b = k
      · subst hbk
        by_cases ha : a = r₀
        · simp [ha, Prod.ext_iff]
        · simp [ha, Prod.ext_iff, Ne.symm ha]
      · by_cases hbk' : b < k <;> by_cases ha : a = r₀ <;>
          simp [hbk', ha, Prod.ext_iff, Ne.symm hbk] <;> omega

/-! ### Sum and count helpers -/

/-- A list sum of `0/1` indicator values is a `countP`. -/
theorem sum_map_boole {α : Type} (l : List α) (pr : α → Bool) :
    (l.map (fun x => if pr x then (1 : Int) else 0)).sum = (l.countP pr : Int) := by
  induction l with
  | nil => simp
  | cons a t ih =>
      rw [List.map_cons, List.sum_cons, ih, List.countP_cons]
      by_cases h : pr a
      · simp [h]
        ring
      · simp [h]

/-- A `Finset.range` sum of `0/1` indicator values is a `countP` over
`List.range`. -/
theorem finset_sum_boole_countP (n : Nat) (pr : Nat → Bool) :
    (∑ c ∈ Finset.range n, if pr c then (1 : Int) else 0)
      = ((List.range n).countP pr : Int) := by
  induction n with
  | zero => simp
  | succ n ih =>
      rw [Finset.sum_range_succ, ih, List.range_succ, List.countP_append,
        List.countP_cons, List.countP_nil]
      by_cases h : pr n <;> simp [h]

/-- Count of a value in `List.range`. -/
theorem count_range_eq (n c : Nat) :
    (List.range n).count c = if c < n then 1 else 0 := by
  induction n with
  | zero => simp
  | succ n ih =>
      rw [List.range_succ, List.count_append, ih]
      by_cases h : c = n
      · subst h
        have h1 : List.count c [c] = 1 := by
          rw [List.count_cons, List.count_nil]
          simp
        rw [h1, if_neg (lt_irrefl c), if_pos (Nat.lt_succ_self c), zero_add]
      · have h3 : List.count c [n] = 0 := by
          rw [List.count_cons, List.count_nil]
          simp [Ne.symm h]
        rw [h3, add_zero]
        by_cases h2 : c < n
        · rw [if_pos h2, if_pos (by omega)]
        · rw [if_neg h2, if_neg (by omega)]

/-- `countP` of index/getD agreement counts occurrences in the list. -/
theorem countP_range_getD (l : List Nat) (i : Nat) :
    (List.range l.length).countP (fun c => l.getD c 0 == i) = l.count i := by
  induction l with
  | nil => simp
  | cons a t ih =>
      rw [List.length_cons, List.range_succ_eq_map, List.countP_cons,
        List.countP_map, List.count_cons]
      have : ((fun c => (a :: t).getD c 0 == i) ∘ (fun x => x + 1))
          = (fun c => t.getD c 0 == i) := by
        funext c
        simp
      rw [this, ih]
      by_cases h : a = i <;> simp [h]

/-- A range-indexed sum with a single live index. -/
theorem sum_range_map_single (f : Nat → Int) (a : Nat) :
    ∀ n, ((List.range n).map (fun x => if a = x then f x else 0)).sum
      = if a < n then f a else 0 := by
  intro n
  induction n with
  | zero => simp
  | succ n ih =>
      rw [List.range_succ, List.map_append, List.sum_append, ih,
        List.map_singleton, List.sum_singleton]
      by_cases h : a = n
      · subst h
        rw [if_neg (lt_irrefl a), if_pos rfl, if_pos (Nat.lt_succ_self a),
          zero_add]
      · rw [if_neg h]
        by_cases h2 : a < n
        · rw [if_pos h2, if_pos (by omega), add_zero]
        · rw [if_neg h2, if_neg (by omega), add_zero]

/-- Swapping every stored coordinate transposes the dense reading. -/
theorem cooValue_map_swap (l : List ((Nat × Nat) × Int)) (a b : Nat) :
    cooValue (l.map (fun e => ((e.1.2, e.1.1), e.2))) (a, b)
      = cooValue l (b, a) := by
  induction l with
  | nil => rfl
  | cons t l ih =>
      rw [List.map_cons, cooValue_cons, cooValue_cons, ih]
      by_cases h : t.1 = (b, a)
      · rw [if_pos h, if_pos (by rw [h])]
      · rw [if_neg h, if_neg (by
          intro hc
          apply h
          have h1 : t.1.2 = a := congrArg Prod.fst hc
          have h2 : t.1.1 = b := congrArg Prod.snd hc
          exact Prod.ext h2 h1)]

theorem transpose_toFun (M : SparseMatrix) (a b : Nat) :
    M.transpose.toFun a b = M.toFun b a := by
  unfold SparseMatrix.transpose SparseMatrix.toFun
  exact cooValue_map_swap M.entries a b

theorem transpose_shape (M : SparseMatrix) :
    M.transpose.shape = (M.shape.2, M.shape.1) := rfl

/-- Dense reading of the product matrix. -/
theorem matMul_toFun (A B : SparseMatrix) (i j : Nat) :
    (matMul A B).toFun i j
      = if i < A.shape.1 ∧ j < B.shape.2 then mulVal A B i j else 0 := by
  unfold matMul SparseMatrix.toFun
  show cooValue ((List.range A.shape.1).flatMap _) _ = _
  rw [cooValue_flatMap]
  by_cases hj : j < B.shape.2
  · have hcongr : ((List.range A.shape.1).map (fun i' =>
        cooValue ((List.range B.shape.2).map
          (fun j' => ((i', j'), mulVal A B i' j'))) (i, j)))
        = ((List.range A.shape.1).map (fun i' =>
            if i = i' then mulVal A B i' j else 0)) := by
      apply List.map_congr_left
      intro i' _
      rw [cooValue_range_constFst]
      by_cases h : i = i' <;> simp [h, hj]
    rw [hcongr, sum_range_map_single (fun i' => mulVal A B i' j) i]
    by_cases hi : i < A.shape.1 <;> simp [hi, hj]
  · have hzero : ((List.range A.shape.1).map (fun i' =>
        cooValue ((List.range B.shape.2).map
          (fun j' => ((i', j'), mulVal A B i' j'))) (i, j)))
        = ((List.range A.shape.1).map (fun _ => (0 : Int))) := by
      apply List.map_congr_left
      intro i' _
      rw [cooValue_range_constFst]
      simp [hj]
    rw [hzero]
    simp [hj]

theorem matMul_shape (A B : SparseMatrix) :
    (matMul A B).shape = (A.shape.1, B.shape.2) := rfl

theorem identityM_toFun (n a b : Nat) :
    (identityM n).toFun a b = if a < n ∧ a = b then 1 else 0 := by
  unfold identityM SparseMatrix.toFun
  exact cooValue_range_fstIdx (fun i => i) (fun _ => 1) a b n

/-! ### Closed forms for the generators -/

theorem generate_submatrix_extraction_ok (n divisor : Nat) (hd : divisor ≠ 0) :
    generate_submatrix_extraction (n, n) divisor
      = .ok
        (cscFromCOO ((List.range (n / divisor)).map
            (fun i => ((i, i * divisor), (1 : Int)))) (n / divisor, n),
         cscFromCOO ((List.range (n / divisor)).map
            (fun i => ((i * divisor, i), (1 : Int)))) (n, n / divisor)) := by
  unfold generate_submatrix_extraction
  rw [if_neg (by simp), if_neg hd]

/-- Dense reading of the `left` extraction matrix. -/
theorem subExtract_left_toFun (n divisor k : Nat) (a b : Nat) :
    (cscFromCOO ((List.range k).map (fun i => ((i, i * divisor), (1 : Int))))
        (k, n)).toFun a b
      = if a < k ∧ a * divisor = b then 1 else 0 := by
  rw [cscFromCOO_toFun]
  exact cooValue_range_fstIdx (fun i => i * divisor) (fun _ => 1) a b k

/-- Dense reading of the `right` extraction matrix. -/
theorem subExtract_right_toFun (n divisor k : Nat) (a b : Nat) :
    (cscFromCOO ((List.range k).map (fun i => ((i * divisor, i), (1 : Int))))
        (n, k)).toFun a b
      = if b < k ∧ b * divisor = a then 1 else 0 := by
  rw [cscFromCOO_toFun]
  exact cooValue_range_sndIdx (fun i => i * divisor) (fun _ => 1) a b k

/-- Dense reading of the permutation matrix. -/
theorem generate_permutation_matrix_toFun (n : Nat) (p : List Nat)
    (a b : Nat) :
    (generate_permutation_matrix n p).toFun a b
      = if b < n ∧ p.getD b 0 = a then 1 else 0 := by
  unfold generate_permutation_matrix
  rw [cscFromCOO_toFun]
  exact cooValue_range_sndIdx (fun i => p.getD i 0) (fun _ => 1) a b n

theorem torusCol_lt (n : Nat) (hn : 0 < n) (i : Nat) (o : Int) :
    torusCol n i o < n := by
  unfold torusCol
  have hne : (n : Int) ≠ 0 := by
    exact_mod_cast Nat.pos_iff_ne_zero.mp hn
  have h1 : 0 ≤ ((i : Int) + o) % (n : Int) := Int.emod_nonneg _ hne
  have h2 : ((i : Int) + o) % (n : Int) < (n : Int) :=
    Int.emod_lt_of_pos _ (by exact_mod_cast hn)
  omega

/-- Dense reading of the torus matrix: the number of offsets that send the
diagonal of row `i` to column `j`. -/
theorem generate_torus_matrix_toFun (dim n_axis : Nat) (i j : Nat) :
    (generate_torus_matrix dim n_axis).toFun i j
      = if i < n_axis ^ dim
          then ((torus_col_offsets dim n_axis).countP
            (fun o => torusCol (n_axis ^ dim) i o == j) : Int)
          else 0 := by
  unfold generate_torus_matrix
  rw [cscFromCOO_toFun]
  unfold torus_triples
  rw [cooValue_flatMap]
  by_cases hi : i < n_axis ^ dim
  · have hcongr : ((torus_col_offsets dim n_axis).map (fun o =>
        cooValue ((List.range (n_axis ^ dim)).map (fun i' =>
          ((i', torusCol (n_axis ^ dim) i' o), (1 : Int)))) (i, j)))
        = ((torus_col_offsets dim n_axis).map (fun o =>
            if (fun o => torusCol (n_axis ^ dim) i o == j) o
              then (1 : Int) else 0)) := by
      apply List.map_congr_left
      intro o _
      rw [cooValue_range_fstIdx (fun i' => torusCol (n_axis ^ dim) i' o)
        (fun _ => 1) i j (n_axis ^ dim)]
      by_cases h : torusCol (n_axis ^ dim) i o = j
      · simp [h, hi]
      · simp [h, hi]
    rw [hcongr, sum_map_boole, if_pos hi]
  · have hzero : ((torus_col_offsets dim n_axis).map (fun o =>
        cooValue ((List.range (n_axis ^ dim)).map (fun i' =>
          ((i', torusCol (n_axis ^ dim) i' o), (1 : Int)))) (i, j)))
        = ((torus_col_offsets dim n_axis).map (fun _ => (0 : Int))) := by
      apply List.map_congr_left
      intro o _
      rw [cooValue_range_fstIdx (fun i' => torusCol (n_axis ^ dim) i' o)
        (fun _ => 1) i j (n_axis ^ dim)]
      simp [hi]
    rw [hzero, if_neg hi]
    simp

/-- Stored coordinates of the torus matrix. -/
theorem generate_torus_matrix_coords_mem (dim n_axis : Nat) (i j : Nat) :
    (i, j) ∈ (generate_torus_matrix dim n_axis).coords
      ↔ i < n_axis ^ dim ∧ ∃ o ∈ torus_col_offsets dim n_axis,
          torusCol (n_axis ^ dim) i o = j := by
  unfold generate_torus_matrix
  rw [mem_cscFromCOO_coords]
  unfold torus_triples
  rw [List.map_flatMap]
  simp only [List.mem_flatMap, List.map_map, List.mem_map, List.mem_range]
  constructor
  · rintro ⟨o, ho, i', hi', hpair⟩
    have h1 : i' = i := congrArg Prod.fst hpair
    have h2 : torusCol (n_axis ^ dim) i' o = j := congrArg Prod.snd hpair
    subst h1
    exact ⟨hi', o, ho, h2⟩
  · rintro ⟨hi, o, ho, hcol⟩
    refine ⟨o, ho, i, hi, ?_⟩
    show (i, torusCol (n_axis ^ dim) i o) = (i, j)
    rw [hcol]

/-- The triple coordinates of `generate_er_matrix` are the sampled pairs. -/
theorem er_triples_fst (rows cols : List Nat) :
    (er_triples rows cols).map Prod.fst = rows.zip cols := by
  unfold er_triples
  rw [List.map_map]
  exact List.map_id _

/-- When every triple value is `1`, the total value at a coordinate is its
multiplicity among the triples. -/
theorem cooValue_count_ones (l : List ((Nat × Nat) × Int))
    (h : ∀ t ∈ l, t.2 = 1) (p : Nat × Nat) :
    cooValue l p = ((l.map Prod.fst).count p : Int) := by
  induction l with
  | nil => rfl
  | cons t l ih =>
      rw [cooValue_cons, ih (fun t' ht' => h t' (List.mem_cons_of_mem _ ht')),
        List.map_cons, List.count_cons]
      by_cases hp : t.1 = p
      · rw [if_pos hp, h t (List.mem_cons_self t l)]
        simp [hp]
        ring
      · rw [if_neg hp]
        simp [hp]

/-! ### Claim C6 -/

/-- C6: `generate_submatrix_extraction(shape, divisor)` fails with the
`ShapeMismatch` error exactly when `shape[0] != shape[1]`; a failing call
produces no matrix pair, and for square shapes this error is never raised
(right-to-left direction of the equivalence). -/
theorem submatrix_extraction_error_iff (shape : Nat × Nat) (divisor : Nat) :
    (generate_submatrix_extraction shape divisor
        = .error SubmatrixError.shapeMismatch ↔ shape.1 ≠ shape.2)
    ∧ (shape.1 ≠ shape.2 →
        ∀ pr : SparseMatrix × SparseMatrix,
          generate_submatrix_extraction shape divisor ≠ .ok pr) := by
  by_cases hs : shape.1 = shape.2 <;> by_cases hd : divisor = 0 <;>
    simp [generate_submatrix_extraction, hs, hd]

/-- Witness for C6 at the concrete non-square shape `(3, 4)`. -/
theorem submatrix_extraction_error_iff_witness :
    generate_submatrix_extraction (3, 4) 2
      = .error SubmatrixError.shapeMismatch :=
  (submatrix_extraction_error_iff (3, 4) 2).1.mpr (by decide)

/-! ### Claim C4 (code bug exhibit) -/

/-- C4: with `dedupe=False`, `nnn = 2` and both samples hitting `(0, 0)`, the
csc construction consolidates the two contributions into a single stored
entry of value `2` — the stored entry count is `1`, not `nnn = 2`, and no
separate duplicate entries survive, contradicting the function's own
docstring ("if False then there may be multiple entries with the same row,
column index"). -/
theorem er_matrix_dedupe_false_consolidates :
    generate_er_matrix 1 1 [0, 0] [0, 0] false
        = ⟨(1, 1), [((0, 0), 2)]⟩
      ∧ (generate_er_matrix 1 1 [0, 0] [0, 0] false).nnz = 1 := by
  constructor <;> rfl

/-! ### Claim C5 -/

/-- C5: with `dedupe=True`, the Erdos-Renyi matrix has shape `(m, n)`, at
most `nnn` stored entries, all stored values `1`, and all stored coordinates
within `[0, m) × [0, n)`, for any sampled index sequences within the numpy
bounds. -/
theorem er_matrix_dedupe_true_bounds (m n nnn : Nat) (rows cols : List Nat)
    (hrows : ∀ r ∈ rows, r < m) (hcols : ∀ c ∈ cols, c < n)
    (hlenr : rows.length = nnn) (hlenc : cols.length = nnn) :
    (generate_er_matrix m n rows cols true).shape = (m, n)
    ∧ (generate_er_matrix m n rows cols true).nnz ≤ nnn
    ∧ (∀ e ∈ (generate_er_matrix m n rows cols true).entries, e.2 = 1)
    ∧ (∀ e ∈ (generate_er_matrix m n rows cols true).entries,
        e.1.1 < m ∧ e.1.2 < n) := by
  refine ⟨rfl, ?_, ?_, ?_⟩
  · show ((cscFromCOO (er_triples rows cols) (m, n)).entries.map
      (fun e => (e.1, (1 : Int)))).length ≤ nnn
    rw [List.length_map]
    show (((er_triples rows cols).map Prod.fst).dedup.map
      (fun p => (p, cooValue (er_triples rows cols) p))).length ≤ nnn
    rw [List.length_map]
    calc ((er_triples rows cols).map Prod.fst).dedup.length
        ≤ ((er_triples rows cols).map Prod.fst).length :=
          (List.dedup_sublist _).length_le
      _ = (rows.zip cols).length := by rw [er_triples_fst]
      _ ≤ rows.length := by
          rw [List.length_zip]
          exact min_le_left _ _
      _ = nnn := hlenr
  · intro e he
    have : e ∈ (cscFromCOO (er_triples rows cols) (m, n)).entries.map
        (fun e => (e.1, (1 : Int))) := he
    rcases List.mem_map.mp this with ⟨e0, _, rfl⟩
    rfl
  · intro e he
    have : e ∈ (cscFromCOO (er_triples rows cols) (m, n)).entries.map
        (fun e => (e.1, (1 : Int))) := he
    rcases List.mem_map.mp this with ⟨e0, he0, rfl⟩
    have hc : e0.1 ∈ (cscFromCOO (er_triples rows cols) (m, n)).coords :=
      List.mem_map_of_mem Prod.fst he0
    rw [mem_cscFromCOO_coords, er_triples_fst] at hc
    have hz := List.of_mem_zip (show (e0.1.1, e0.1.2) ∈ rows.zip cols from hc)
    exact ⟨hrows _ hz.1, hcols _ hz.2⟩

/-- Witness for C5 at a concrete sample with one collision. -/
theorem er_matrix_dedupe_true_bounds_witness :
    (∀ r ∈ ([0, 0, 2] : List Nat), r < 3)
    ∧ ((generate_er_matrix 3 3 [0, 0, 2] [1, 1, 2] true).shape = (3, 3)
      ∧ (generate_er_matrix 3 3 [0, 0, 2] [1, 1, 2] true).nnz ≤ 3
      ∧ (∀ e ∈ (generate_er_matrix 3 3 [0, 0, 2] [1, 1, 2] true).entries,
          e.2 = 1)
      ∧ (∀ e ∈ (generate_er_matrix 3 3 [0, 0, 2] [1, 1, 2] true).entries,
          e.1.1 < 3 ∧ e.1.2 < 3)) :=
  ⟨by decide,
    er_matrix_dedupe_true_bounds 3 3 3 [0, 0, 2] [1, 1, 2]
      (by decide) (by decide) rfl rfl⟩

/-! ### Claim C7 -/

/-- C7: in both problem assemblers, the product file's `field` metadata is
the operands' shared field kind when `a`, `b` (and `c` when present) all have
the same field kind and is left unspecified (`None`) otherwise, and the
product file's `symmetry` metadata is always `"general"`; each assembled
problem contains a product file. -/
theorem multiply_problem_product_metadata (a b : SparseMatrix)
    (c : Option SparseMatrix) (aF bF cF aS bS cS : String) :
    (∀ f ∈ generate_multiply_problem a b c aF bF cF aS bS cS,
      isProductFile f →
        f.symmetry = "general"
          ∧ f.field = if ∀ g ∈ operandFields c aF bF cF, g = aF
              then some aF else none)
    ∧ (∀ f ∈ generate_medium_test_multiply_problem a b c aF bF cF aS bS cS,
      isProductFile f →
        f.symmetry = "general"
          ∧ f.field = if ∀ g ∈ operandFields c aF bF cF, g = aF
              then some aF else none)
    ∧ (∃ f ∈ generate_multiply_problem a b c aF bF cF aS bS cS,
        isProductFile f)
    ∧ (∃ f ∈ generate_medium_test_multiply_problem a b c aF bF cF aS bS cS,
        isProductFile f) := by
  have hab : ∀ x : Option String,
      (if aF = bF then x else none)
        = if ∀ g ∈ ([aF, bF] : List String), g = aF then x else none := by
    intro x
    by_cases h : aF = bF
    · rw [if_pos h, if_pos ?_]
      intro g hg
      rcases List.mem_cons.mp hg with rfl | hg
      · rfl
      · rw [List.mem_singleton.mp hg, h]
    · rw [if_neg h, if_neg ?_]
      intro hall
      exact h ((hall bF (by simp)).symm)
  have habc : ∀ x : Option String,
      (if aF = bF ∧ bF = cF then x else none)
        = if ∀ g ∈ ([aF, bF, cF] : List String), g = aF then x else none := by
    intro x
    by_cases h : aF = bF ∧ bF = cF
    · rw [if_pos h, if_pos ?_]
      intro g hg
      rcases List.mem_cons.mp hg with rfl | hg
      · rfl
      · rcases List.mem_cons.mp hg with rfl | hg
        · rw [h.1]
        · rw [List.mem_singleton.mp hg, ← h.2, h.1]
    · rw [if_neg h, if_neg ?_]
      intro hall
      exact h ⟨(hall bF (by simp)).symm,
        (hall bF (by simp)).trans (hall cF (by simp)).symm⟩
  have hane : ¬ isProductFile ⟨"a", a, some aF, aS⟩ := by
    show ¬("a" = "product_ab" ∨ "a" = "product_abc")
    decide
  have hbne : ¬ isProductFile ⟨"b", b, some bF, bS⟩ := by
    show ¬("b" = "product_ab" ∨ "b" = "product_abc")
    decide
  cases c with
  | none =>
      refine ⟨?_, ?_, ?_, ?_⟩ <;>
        simp only [generate_multiply_problem,
          generate_medium_test_multiply_problem, operandFields,
          List.cons_append, List.nil_append, List.mem_cons,
          List.not_mem_nil, or_false]
      · intro f hf hprod
        rcases hf with rfl | rfl | rfl
        · exact absurd hprod hane
        · exact absurd hprod hbne
        · exact ⟨rfl, hab (some aF)⟩
      · intro f hf hprod
        rcases hf with rfl | rfl | rfl
        · exact absurd hprod hane
        · exact absurd hprod hbne
        · exact ⟨rfl, hab (some aF)⟩
      · exact ⟨⟨"product_ab", matMul a b,
          if aF = bF then some aF else none, "general"⟩,
          Or.inr (Or.inr rfl), Or.inl rfl⟩
      · exact ⟨⟨"product_ab", matMul a b,
          if aF = bF then some aF else none, "general"⟩,
          Or.inr (Or.inr rfl), Or.inl rfl⟩
  | some cm =>
      have hcne : ¬ isProductFile ⟨"c", cm, some cF, cS⟩ := by
        show ¬("c" = "product_ab" ∨ "c" = "product_abc")
        decide
      refine ⟨?_, ?_, ?_, ?_⟩ <;>
        simp only [generate_multiply_problem,
          generate_medium_test_multiply_problem, operandFields,
          List.cons_append, List.nil_append, List.mem_cons,
          List.not_mem_nil, or_false]
      · intro f hf hprod
        rcases hf with rfl | rfl | rfl | rfl
        · exact absurd hprod hane
        · exact absurd hprod hbne
        · exact absurd hprod hcne
        · exact ⟨rfl, habc (some aF)⟩
      · intro f hf hprod
        rcases hf with rfl | rfl | rfl | rfl
        · exact absurd hprod hane
        · exact absurd hprod hbne
        · exact absurd hprod hcne
        · exact ⟨rfl, habc (some aF)⟩
      · exact ⟨⟨"product_abc", matMul (matMul a b) cm,
          if aF = bF ∧ bF = cF then some aF else none, "general"⟩,
          Or.inr (Or.inr (Or.inr rfl)), Or.inr rfl⟩
      · exact ⟨⟨"product_abc", matMul (matMul a b) cm,
          if aF = bF ∧ bF = cF then some aF else none, "general"⟩,
          Or.inr (Or.inr (Or.inr rfl)), Or.inr rfl⟩

/-- Witness for C7: a concrete two-matrix problem with matching integer
fields; the product file carries `field = some "integer"` and
`symmetry = "general"`. -/
theorem multiply_problem_product_metadata_witness :
    (MtxFile.mk "product_ab" (matMul (identityM 1) (identityM 1))
        (some "integer") "general").symmetry = "general"
    ∧ (MtxFile.mk "product_ab" (matMul (identityM 1) (identityM 1))
        (some "integer") "general").field
      = if ∀ g ∈ operandFields none "integer" "integer" "integer",
            g = "integer"
          then some "integer" else none :=
  (multiply_problem_product_metadata (identityM 1) (identityM 1) none
    "integer" "integer" "integer" "general" "general" "general").1
    ⟨"product_ab", matMul (identityM 1) (identityM 1), some "integer",
      "general"⟩
    (by decide) (by decide)

/-! ### Claim C10 -/

/-- C10: every generator output has a duplicate-free stored coordinate list
(construction through the csc container consolidates repeated coordinates),
and when contributions collide the stored value is their multiplicity: the
ER matrix without the extra `dedupe` pass stores at `(i, j)` the number of
sampled pairs equal to `(i, j)`, and the torus matrix stores at `(i, j)` the
number of offset-diagonal contributions to `(i, j)`. -/
theorem generators_consolidate_duplicates (dim n_axis m n nperm : Nat)
    (rows cols p : List Nat) (dedupe : Bool)
    (shape : Nat × Nat) (divisor : Nat) (L R : SparseMatrix)
    (hok : generate_submatrix_extraction shape divisor = .ok (L, R)) :
    (generate_torus_matrix dim n_axis).coords.Nodup
    ∧ (generate_er_matrix m n rows cols dedupe).coords.Nodup
    ∧ (generate_permutation_matrix nperm p).coords.Nodup
    ∧ L.coords.Nodup ∧ R.coords.Nodup
    ∧ (∀ i j, (generate_er_matrix m n rows cols false).toFun i j
        = ((rows.zip cols).count (i, j) : Int))
    ∧ (∀ i j, (generate_torus_matrix dim n_axis).toFun i j
        = (((torus_triples dim n_axis).map Prod.fst).count (i, j) : Int)) := by
  have hLR : L.coords.Nodup ∧ R.coords.Nodup := by
    by_cases h1 : shape.1 = shape.2
    · by_cases h2 : divisor = 0
      · rw [generate_submatrix_extraction, if_neg (by simp [h1]),
          if_pos h2] at hok
        cases hok
      · rw [generate_submatrix_extraction, if_neg (by simp [h1]),
          if_neg h2] at hok
        rcases (Except.ok.injEq _ _).mp hok with h
        have hL : L = cscFromCOO ((List.range (shape.1 / divisor)).map
            (fun i => ((i, i * divisor), (1 : Int))))
            (shape.1 / divisor, shape.1) := (congrArg Prod.fst h).symm
        have hR : R = cscFromCOO ((List.range (shape.1 / divisor)).map
            (fun i => ((i * divisor, i), (1 : Int))))
            (shape.1, shape.1 / divisor) := (congrArg Prod.snd h).symm
        rw [hL, hR]
        exact ⟨cscFromCOO_coords_nodup _ _, cscFromCOO_coords_nodup _ _⟩
    · rw [generate_submatrix_extraction, if_pos (by simp [h1])] at hok
      cases hok
  refine ⟨cscFromCOO_coords_nodup _ _, ?_, cscFromCOO_coords_nodup _ _,
    hLR.1, hLR.2, ?_, ?_⟩
  · cases dedupe
    · exact cscFromCOO_coords_nodup _ _
    · show (((cscFromCOO (er_triples rows cols) (m, n)).entries.map
        (fun e => (e.1, (1 : Int)))).map Prod.fst).Nodup
      rw [List.map_map]
      exact cscFromCOO_coords_nodup _ _
  · intro i j
    show (cscFromCOO (er_triples rows cols) (m, n)).toFun i j = _
    rw [cscFromCOO_toFun, cooValue_count_ones _ ?_ _, er_triples_fst]
    intro t ht
    rcases List.mem_map.mp ht with ⟨rc, _, rfl⟩
    rfl
  · intro i j
    unfold generate_torus_matrix
    rw [cscFromCOO_toFun, cooValue_count_ones _ ?_ _]
    intro t ht
    unfold torus_triples at ht
    rcases List.mem_flatMap.mp ht with ⟨o, _, hto⟩
    rcases List.mem_map.mp hto with ⟨i', _, rfl⟩
    rfl

/-- Witness for C10 at concrete inputs (torus `dim=1, n_axis=2` where the
`+1`/`-1` diagonals collide, an ER sample with a repeated pair, a concrete
permutation, and the `(4, 4)`, divisor-2 extraction pair). -/
theorem generators_consolidate_duplicates_witness :
    (generate_submatrix_extraction (4, 4) 2
      = .ok (⟨(2, 4), [((0, 0), 1), ((1, 2), 1)]⟩,
             ⟨(4, 2), [((0, 0), 1), ((2, 1), 1)]⟩))
    ∧ ((generate_torus_matrix 1 2).coords.Nodup
      ∧ (generate_er_matrix 1 1 [0, 0] [0, 0] false).coords.Nodup
      ∧ (generate_permutation_matrix 3 [2, 0, 1]).coords.Nodup
      ∧ (⟨(2, 4), [((0, 0), 1), ((1, 2), 1)]⟩ : SparseMatrix).coords.Nodup
      ∧ (⟨(4, 2), [((0, 0), 1), ((2, 1), 1)]⟩ : SparseMatrix).coords.Nodup
      ∧ (∀ i j, (generate_er_matrix 1 1 [0, 0] [0, 0] false).toFun i j
          = ((([0, 0] : List Nat).zip ([0, 0] : List Nat)).count (i, j) : Int))
      ∧ (∀ i j, (generate_torus_matrix 1 2).toFun i j
          = (((torus_triples 1 2).map Prod.fst).count (i, j) : Int))) :=
  ⟨rfl, generators_consolidate_duplicates 1 2 1 1 3 [0, 0] [0, 0] [2, 0, 1]
    false (4, 4) 2 _ _ rfl⟩

/-! ### Claim C1 -/

/-- The `k × k` submatrix of `M` formed by rows and columns
`{0, divisor, 2·divisor, ...}` in order (the claim's reference matrix). -/
def strideSubmatrix (M : SparseMatrix) (divisor k : Nat) : SparseMatrix :=
  ⟨(k, k), (List.range k).flatMap (fun i =>
    (List.range k).map (fun j => ((i, j), M.toFun (i * divisor) (j * divisor))))⟩

theorem strideSubmatrix_toFun (M : SparseMatrix) (divisor k : Nat)
    (i j : Nat) :
    (strideSubmatrix M divisor k).toFun i j
      = if i < k ∧ j < k then M.toFun (i * divisor) (j * divisor) else 0 := by
  show cooValue ((List.range k).flatMap (fun i =>
    (List.range k).map (fun j =>
      ((i, j), M.toFun (i * divisor) (j * divisor))))) (i, j)
    = if i < k ∧ j < k then M.toFun (i * divisor) (j * divisor) else 0
  rw [cooValue_flatMap]
  by_cases hj : j < k
  · have hcongr : ((List.range k).map (fun i' =>
        cooValue ((List.range k).map
          (fun j' => ((i', j'), M.toFun (i' * divisor) (j' * divisor))))
          (i, j)))
        = ((List.range k).map (fun i' =>
            if i = i' then M.toFun (i' * divisor) (j * divisor) else 0)) := by
      apply List.map_congr_left
      intro i' _
      rw [cooValue_range_constFst]
      by_cases h : i = i' <;> simp [h, hj]
    rw [hcongr,
      sum_range_map_single (fun i' => M.toFun (i' * divisor) (j * divisor)) i]
    by_cases hi : i < k <;> simp [hi, hj]
  · have hzero : ((List.range k).map (fun i' =>
        cooValue ((List.range k).map
          (fun j' => ((i', j'), M.toFun (i' * divisor) (j' * divisor))))
          (i, j)))
        = ((List.range k).map (fun _ => (0 : Int))) := by
      apply List.map_congr_left
      intro i' _
      rw [cooValue_range_constFst]
      simp [hj]
    rw [hzero]
    simp [hj]

/-- C1: for any `divisor ≥ 1` and any matrix `M` of square shape `(n, n)`,
`generate_submatrix_extraction((n, n), divisor)` returns a pair `(Left,
Right)` with `k = n / divisor`, `Left` of shape `(k, n)` whose only nonzero
in row `i` is a `1` at column `i * divisor`, `Right` of shape `(n, k)` whose
only nonzero at column `i` sits in row `i * divisor`, and
`Left · M · Right` equals the evenly strided `k × k` submatrix of `M`. -/
theorem submatrix_extraction_correct (n divisor : Nat) (hdiv : 1 ≤ divisor)
    (M : SparseMatrix) (hM : M.shape = (n, n)) :
    ∃ L R : SparseMatrix,
      generate_submatrix_extraction (n, n) divisor = Except.ok (L, R)
      ∧ L.shape = (n / divisor, n)
      ∧ R.shape = (n, n / divisor)
      ∧ (∀ i j, L.toFun i j
          = if i < n / divisor ∧ i * divisor = j then 1 else 0)
      ∧ (∀ i j, R.toFun i j
          = if j < n / divisor ∧ j * divisor = i then 1 else 0)
      ∧ MatEq (matMul (matMul L M) R)
          (strideSubmatrix M divisor (n / divisor)) := by
  have hd0 : divisor ≠ 0 := by omega
  refine ⟨_, _, generate_submatrix_extraction_ok n divisor hd0, rfl, rfl,
    fun i j => subExtract_left_toFun n divisor (n / divisor) i j,
    fun i j => subExtract_right_toFun n divisor (n / divisor) i j, ?_⟩
  have hLt : ∀ i, i < n / divisor → i * divisor < n := by
    intro i hi
    have h1 : (i + 1) * divisor ≤ (n / divisor) * divisor :=
      Nat.mul_le_mul_right _ hi
    have h2 : (n / divisor) * divisor ≤ n := Nat.div_mul_le_self n divisor
    have h3 : (i + 1) * divisor = i * divisor + divisor := by ring
    omega
  set L := cscFromCOO ((List.range (n / divisor)).map
    (fun i => ((i, i * divisor), (1 : Int)))) (n / divisor, n) with hLdef
  set R := cscFromCOO ((List.range (n / divisor)).map
    (fun i => ((i * divisor, i), (1 : Int)))) (n, n / divisor) with hRdef
  constructor
  · rfl
  · intro i hi j hj
    have hi' : i < n / divisor := hi
    have hj' : j < n / divisor := hj
    have hM2 : M.shape.2 = n := by rw [hM]
    rw [matMul_toFun, strideSubmatrix_toFun, if_pos ⟨hi', hj'⟩,
      if_pos ⟨hi', hj'⟩]
    have hrange : (matMul L M).shape.2 = n := hM2
    unfold mulVal
    rw [hrange]
    have eR : ∀ c, R.toFun c j = if j * divisor = c then 1 else 0 := by
      intro c
      rw [hRdef, subExtract_right_toFun]
      by_cases h : j * divisor = c <;> simp [h, hj']
    have hstep : ∀ c ∈ Finset.range n,
        (matMul L M).toFun i c * R.toFun c j
          = if j * divisor = c then (matMul L M).toFun i c else 0 := by
      intro c _
      rw [eR c]
      by_cases h : j * divisor = c <;> simp [h]
    rw [Finset.sum_congr rfl hstep,
      Finset.sum_ite_eq (Finset.range n) (j * divisor)
        (fun c => (matMul L M).toFun i c),
      if_pos (Finset.mem_range.mpr (hLt j hj'))]
    rw [matMul_toFun, if_pos ⟨hi', by rw [hM2]; exact hLt j hj'⟩]
    unfold mulVal
    have hL2 : L.shape.2 = n := rfl
    rw [hL2]
    have eL : ∀ c, L.toFun i c = if i * divisor = c then 1 else 0 := by
      intro c
      rw [hLdef, subExtract_left_toFun]
      by_cases h : i * divisor = c <;> simp [h, hi']
    have hstep2 : ∀ c ∈ Finset.range n,
        L.toFun i c * M.toFun c (j * divisor)
          = if i * divisor = c then M.toFun c (j * divisor) else 0 := by
      intro c _
      rw [eL c]
      by_cases h : i * divisor = c <;> simp [h]
    rw [Finset.sum_congr rfl hstep2,
      Finset.sum_ite_eq (Finset.range n) (i * divisor)
        (fun c => M.toFun c (j * divisor)),
      if_pos (Finset.mem_range.mpr (hLt i hi'))]

/-- Witness for C1 at the claim's concrete scenario: shape `(4, 4)`,
divisor `2`, with `M` the order-4 identity. -/
theorem submatrix_extraction_correct_witness :
    (1 ≤ 2) ∧ (identityM 4).shape = (4, 4)
    ∧ (∃ L R : SparseMatrix,
        generate_submatrix_extraction (4, 4) 2 = Except.ok (L, R)
        ∧ L.shape = (4 / 2, 4)
        ∧ R.shape = (4, 4 / 2)
        ∧ (∀ i j, L.toFun i j = if i < 4 / 2 ∧ i * 2 = j then 1 else 0)
        ∧ (∀ i j, R.toFun i j = if j < 4 / 2 ∧ j * 2 = i then 1 else 0)
        ∧ MatEq (matMul (matMul L (identityM 4)) R)
            (strideSubmatrix (identityM 4) 2 (4 / 2))) :=
  ⟨by decide, rfl,
    submatrix_extraction_correct 4 2 (by decide) (identityM 4) rfl⟩

/-! ### Claim C3 -/

/-- A permutation of `range n` contains each `r < n` exactly once. -/
theorem perm_count_eq_one (n : Nat) (p : List Nat)
    (hp : p.Perm (List.range n)) (r : Nat) (hr : r < n) : p.count r = 1 := by
  have h : p.count r = (List.range n).count r := by
    rw [List.count_eq_countP, List.count_eq_countP]
    exact hp.countP_eq _
  rw [h, count_range_eq, if_pos hr]

/-- The indicator sum over positions counts occurrences in the list. -/
theorem perm_sum_getD (n : Nat) (p : List Nat) (hlen : p.length = n)
    (i : Nat) :
    (∑ c ∈ Finset.range n, if p.getD c 0 = i then (1 : Int) else 0)
      = (p.count i : Int) := by
  have h1 : (∑ c ∈ Finset.range n, if p.getD c 0 = i then (1 : Int) else 0)
      = (∑ c ∈ Finset.range n,
          if (fun c => p.getD c 0 == i) c then (1 : Int) else 0) := by
    apply Finset.sum_congr rfl
    intro c _
    by_cases h : p.getD c 0 = i <;> simp [h]
  rw [h1, finset_sum_boole_countP, ← hlen, countP_range_getD]

/-- C3: for a permutation `p` of `range n`, the permutation matrix has shape
`(n, n)`, exactly one stored entry in every row and in every column, every
stored value `1`, and `P · Pᵗ` equals the identity matrix of order `n`. -/
theorem permutation_matrix_orthogonal (n : Nat) (hn : 1 ≤ n) (p : List Nat)
    (hp : p.Perm (List.range n)) :
    (generate_permutation_matrix n p).shape = (n, n)
    ∧ (∀ r < n, (generate_permutation_matrix n p).rowNnz r = 1)
    ∧ (∀ c < n, (generate_permutation_matrix n p).colNnz c = 1)
    ∧ (∀ e ∈ (generate_permutation_matrix n p).entries, e.2 = 1)
    ∧ MatEq (matMul (generate_permutation_matrix n p)
        (generate_permutation_matrix n p).transpose) (identityM n) := by
  have hlen : p.length = n := by simpa using hp.length_eq
  have hfst : (((List.range n).map (fun i => ((p.getD i 0, i), (1 : Int)))).map
      Prod.fst) = (List.range n).map (fun i => (p.getD i 0, i)) := by
    rw [List.map_map]
    rfl
  have hsupN : ((List.range n).map
      (fun i => ((p.getD i 0, i) : Nat × Nat))).Nodup := by
    refine List.Nodup.map ?_ (List.nodup_range n)
    intro x y hxy
    exact congrArg Prod.snd hxy
  have hD : ((((List.range n).map
      (fun i => ((p.getD i 0, i), (1 : Int)))).map Prod.fst)).dedup
      = (List.range n).map (fun i => (p.getD i 0, i)) := by
    rw [hfst]
    exact List.Nodup.dedup hsupN
  refine ⟨rfl, ?_, ?_, ?_, ?_⟩
  · intro r hr
    show ((((((List.range n).map (fun i => ((p.getD i 0, i), (1 : Int)))).map
        Prod.fst).dedup).map (fun q => (q,
          cooValue ((List.range n).map (fun i => ((p.getD i 0, i), (1 : Int))))
            q))).filter (fun e => e.1.1 == r)).length = 1
    rw [hD, List.filter_map, List.length_map, List.filter_map,
      List.length_map]
    have hgoal : (List.filter (fun i => p.getD i 0 == r)
        (List.range n)).length = 1 := by
      rw [← List.countP_eq_length_filter, ← hlen, countP_range_getD]
      exact perm_count_eq_one n p hp r hr
    exact hgoal
  · intro c hc
    show ((((((List.range n).map (fun i => ((p.getD i 0, i), (1 : Int)))).map
        Prod.fst).dedup).map (fun q => (q,
          cooValue ((List.range n).map (fun i => ((p.getD i 0, i), (1 : Int))))
            q))).filter (fun e => e.1.2 == c)).length = 1
    rw [hD, List.filter_map, List.length_map, List.filter_map,
      List.length_map]
    have hgoal : (List.filter (fun i => i == c)
        (List.range n)).length = 1 := by
      rw [← List.countP_eq_length_filter, ← List.count_eq_countP,
        count_range_eq, if_pos hc]
    exact hgoal
  · intro e he
    rcases List.mem_map.mp he with ⟨q, hq, rfl⟩
    rw [hD] at hq
    rcases List.mem_map.mp hq with ⟨i, hi, rfl⟩
    show cooValue ((List.range n).map (fun i => ((p.getD i 0, i), (1 : Int))))
      (p.getD i 0, i) = 1
    rw [cooValue_range_sndIdx (fun i => p.getD i 0) (fun _ => 1)
      (p.getD i 0) i n]
    simp [List.mem_range.mp hi]
  · refine ⟨rfl, ?_⟩
    intro i hi j hj
    have hi' : i < n := hi
    have hj' : j < n := hj
    rw [matMul_toFun, if_pos ⟨hi', hj'⟩, identityM_toFun]
    have hP2 : (generate_permutation_matrix n p).shape.2 = n := rfl
    unfold mulVal
    rw [hP2]
    have hterm : ∀ c ∈ Finset.range n,
        (generate_permutation_matrix n p).toFun i c
          * (generate_permutation_matrix n p).transpose.toFun c j
        = if p.getD c 0 = i ∧ p.getD c 0 = j then (1 : Int) else 0 := by
      intro c hc
      rw [transpose_toFun, generate_permutation_matrix_toFun,
        generate_permutation_matrix_toFun]
      have hcn : c < n := Finset.mem_range.mp hc
      by_cases h1 : p.getD c 0 = i <;> by_cases h2 : p.getD c 0 = j
      · rw [if_pos ⟨hcn, h1⟩, if_pos ⟨hcn, h2⟩, if_pos ⟨h1, h2⟩, one_mul]
      · rw [if_neg (show ¬(c < n ∧ p.getD c 0 = j) from fun hq => h2 hq.2),
          mul_zero, if_neg (show ¬(p.getD c 0 = i ∧ p.getD c 0 = j) from
            fun hq => h2 hq.2)]
      · rw [if_neg (show ¬(c < n ∧ p.getD c 0 = i) from fun hq => h1 hq.2),
          zero_mul, if_neg (show ¬(p.getD c 0 = i ∧ p.getD c 0 = j) from
            fun hq => h1 hq.1)]
      · rw [if_neg (show ¬(c < n ∧ p.getD c 0 = i) from fun hq => h1 hq.2),
          zero_mul, if_neg (show ¬(p.getD c 0 = i ∧ p.getD c 0 = j) from
            fun hq => h1 hq.1)]
    rw [Finset.sum_congr rfl hterm]
    by_cases hij : i = j
    · subst hij
      have hsimpl : ∀ c ∈ Finset.range n,
          (if p.getD c 0 = i ∧ p.getD c 0 = i then (1 : Int) else 0)
            = if p.getD c 0 = i then 1 else 0 := by
        intro c _
        by_cases h : p.getD c 0 = i
        · rw [if_pos ⟨h, h⟩, if_pos h]
        · rw [if_neg (show ¬(p.getD c 0 = i ∧ p.getD c 0 = i) from
            fun hq => h hq.1), if_neg h]
      rw [Finset.sum_congr rfl hsimpl, perm_sum_getD n p hlen i,
        perm_count_eq_one n p hp i hi']
      simp [hi']
    · have hzero : ∀ c ∈ Finset.range n,
          (if p.getD c 0 = i ∧ p.getD c 0 = j then (1 : Int) else 0) = 0 := by
        intro c _
        by_cases h1 : p.getD c 0 = i <;> by_cases h2 : p.getD c 0 = j
        · exact absurd (h1.symm.trans h2) hij
        · rw [if_neg (show ¬(p.getD c 0 = i ∧ p.getD c 0 = j) from
            fun hq => h2 hq.2)]
        · rw [if_neg (show ¬(p.getD c 0 = i ∧ p.getD c 0 = j) from
            fun hq => h1 hq.1)]
        · rw [if_neg (show ¬(p.getD c 0 = i ∧ p.getD c 0 = j) from
            fun hq => h1 hq.1)]
      rw [Finset.sum_congr rfl hzero, Finset.sum_const, smul_zero]
      simp [hij]

/-- Witness for C3 at `n = 3` with the concrete permutation `[2, 0, 1]`. -/
theorem permutation_matrix_orthogonal_witness :
    (1 ≤ 3) ∧ (([2, 0, 1] : List Nat).Perm (List.range 3))
    ∧ ((generate_permutation_matrix 3 [2, 0, 1]).shape = (3, 3)
      ∧ (∀ r < 3, (generate_permutation_matrix 3 [2, 0, 1]).rowNnz r = 1)
      ∧ (∀ c < 3, (generate_permutation_matrix 3 [2, 0, 1]).colNnz c = 1)
      ∧ (∀ e ∈ (generate_permutation_matrix 3 [2, 0, 1]).entries, e.2 = 1)
      ∧ MatEq (matMul (generate_permutation_matrix 3 [2, 0, 1])
          (generate_permutation_matrix 3 [2, 0, 1]).transpose)
          (identityM 3)) :=
  ⟨by decide, by decide,
    permutation_matrix_orthogonal 3 (by decide) [2, 0, 1] (by decide)⟩

/-! ### Claim C2 -/

/-- The claim's offset multiset, following the spec's words: `{0}` when
`dim = 0`, else `{0, +1, -1}` together with `+(n_axis^d - 1)` and
`-(n_axis^d - 1)` for each `d` in `1..dim-1`. -/
def spec_torus_offsets (dim n_axis : Nat) : Multiset Int :=
  if dim = 0 then {0}
  else {0, 1, -1} + (Multiset.range (dim - 1)).bind
    (fun d0 => {((n_axis : Int) ^ (d0 + 1) - 1), -((n_axis : Int) ^ (d0 + 1) - 1)})

/-- The claim's diagonal for offset `o`: `{(i, (i + o) mod n) : i in 0..n-1}`
with multiplicity one per `i`. -/
def spec_torus_diag (n : Nat) (o : Int) : Multiset (Nat × Nat) :=
  (Multiset.range n).map (fun i => (i, torusCol n i o))

/-- The claim's coordinate multiset: the union over the offsets of the
diagonals. -/
def spec_torus_coords (dim n_axis : Nat) : Multiset (Nat × Nat) :=
  (spec_torus_offsets dim n_axis).bind (spec_torus_diag (n_axis ^ dim))

theorem coe_flatMap_multiset {α β : Type} (l : List α) (f : α → List β) :
    ((l.flatMap f : List β) : Multiset β)
      = (l : Multiset α).bind (fun a => ((f a : List β) : Multiset β)) := by
  induction l with
  | nil => rfl
  | cons a t ih =>
      have h1 : ((List.flatMap (a :: t) f : List β) : Multiset β)
          = ((f a : List β) : Multiset β)
            + ((t.flatMap f : List β) : Multiset β) := rfl
      rw [h1, ← Multiset.cons_coe, Multiset.cons_bind, ih]

/-- The tail of the offset list corresponds to the spec's per-axis pairs. -/
theorem torus_offsets_tail_coe (n_axis : Nat) : ∀ k,
    (((List.range' 1 k).flatMap (fun d =>
        [((n_axis : Int) ^ d - 1), -((n_axis : Int) ^ d - 1)]) : List Int)
      : Multiset Int)
      = (Multiset.range k).bind (fun d0 =>
          {((n_axis : Int) ^ (d0 + 1) - 1),
            -((n_axis : Int) ^ (d0 + 1) - 1)}) := by
  intro k
  induction k with
  | zero => rfl
  | succ k ih =>
      rw [List.range'_concat, List.flatMap_append,
        show 1 + 1 * k = k + 1 from by ring, Multiset.range_succ,
        Multiset.cons_bind, ← ih]
      have h1 : ((((List.range' 1 k).flatMap (fun d =>
          [((n_axis : Int) ^ d - 1), -((n_axis : Int) ^ d - 1)]))
          ++ ((List.flatMap [k + 1] (fun d =>
            [((n_axis : Int) ^ d - 1), -((n_axis : Int) ^ d - 1)]))) :
          List Int) : Multiset Int)
          = (((List.range' 1 k).flatMap (fun d =>
              [((n_axis : Int) ^ d - 1), -((n_axis : Int) ^ d - 1)]) :
              List Int) : Multiset Int)
            + {((n_axis : Int) ^ (k + 1) - 1),
                -((n_axis : Int) ^ (k + 1) - 1)} := rfl
      rw [h1, add_comm]

/-- The code's offset list carries exactly the spec's offset multiset. -/
theorem torus_offsets_coe (dim n_axis : Nat) :
    ((torus_col_offsets dim n_axis : List Int) : Multiset Int)
      = spec_torus_offsets dim n_axis := by
  unfold torus_col_offsets spec_torus_offsets
  by_cases h : dim = 0
  · rw [if_pos h, if_pos h]
    rfl
  · rw [if_neg h, if_neg h]
    have hsplit : ((([0, 1, -1] : List Int)
        ++ (List.range' 1 (dim - 1)).flatMap (fun d =>
          [((n_axis : Int) ^ d - 1), -((n_axis : Int) ^ d - 1)]) : List Int)
        : Multiset Int)
        = (([0, 1, -1] : List Int) : Multiset Int)
          + (((List.range' 1 (dim - 1)).flatMap (fun d =>
              [((n_axis : Int) ^ d - 1), -((n_axis : Int) ^ d - 1)]) :
              List Int) : Multiset Int) := rfl
    rw [hsplit, torus_offsets_tail_coe]
    rfl

/-- Each code diagonal carries the spec diagonal multiset. -/
theorem torus_diag_coe (n : Nat) (o : Int) :
    (((List.range n).map (fun i => ((i : Nat), torusCol n i o))
      : List (Nat × Nat)) : Multiset (Nat × Nat)) = spec_torus_diag n o :=
  (Multiset.map_coe _ _).symm

/-- C2: the coordinate multiset assembled by `generate_torus_matrix` is the
union over the offsets (`[0]` for `dim = 0`, else `[0, +1, -1]` plus
`±(n_axis^d - 1)` for `d in 1..dim-1`) of the diagonals
`{(i, (i+o) mod n)}`, every contribution has value `1`, and `dim = 0` yields
the single-entry matrix `[[1]]`. -/
theorem torus_matrix_coordinate_multiset (dim n_axis : Nat)
    (hna : 1 ≤ n_axis) :
    ((((torus_triples dim n_axis).map Prod.fst) : List (Nat × Nat))
        : Multiset (Nat × Nat)) = spec_torus_coords dim n_axis
    ∧ (∀ t ∈ torus_triples dim n_axis, t.2 = 1)
    ∧ generate_torus_matrix 0 n_axis = ⟨(1, 1), [((0, 0), (1 : Int))]⟩ := by
  refine ⟨?_, ?_, ?_⟩
  · have hmap : (torus_triples dim n_axis).map Prod.fst
        = (torus_col_offsets dim n_axis).flatMap (fun o =>
            (List.range (n_axis ^ dim)).map
              (fun i => (i, torusCol (n_axis ^ dim) i o))) := by
      unfold torus_triples
      rw [List.map_flatMap]
      refine congrArg (List.flatMap _) (funext fun o => ?_)
      rw [List.map_map]
      rfl
    rw [hmap, coe_flatMap_multiset, torus_offsets_coe]
    unfold spec_torus_coords
    exact Multiset.bind_congr (fun o _ => torus_diag_coe _ o)
  · intro t ht
    unfold torus_triples at ht
    rcases List.mem_flatMap.mp ht with ⟨o, _, hto⟩
    rcases List.mem_map.mp hto with ⟨i, _, rfl⟩
    rfl
  · rfl

/-- Witness for C2 at `dim = 1, n_axis = 2` (where the `+1` and `-1`
diagonals collide as coordinate pairs and both occurrences are kept in the
multiset). -/
theorem torus_matrix_coordinate_multiset_witness :
    (1 ≤ 2)
    ∧ (((((torus_triples 1 2).map Prod.fst) : List (Nat × Nat))
        : Multiset (Nat × Nat)) = spec_torus_coords 1 2
      ∧ (∀ t ∈ torus_triples 1 2, t.2 = 1)
      ∧ generate_torus_matrix 0 2 = ⟨(1, 1), [((0, 0), (1 : Int))]⟩) :=
  ⟨by decide, torus_matrix_coordinate_multiset 1 2 (by decide)⟩

/-! ### Claim C8 -/

theorem list_toFinset_map {α β : Type} [DecidableEq α] [DecidableEq β]
    (l : List α) (f : α → β) :
    (l.map f).toFinset = l.toFinset.image f := by
  ext x
  simp only [List.mem_toFinset, List.mem_map, Finset.mem_image]

/-- Shifting by an offset only depends on the offset's residue. -/
theorem torusCol_emod (n i : Nat) (o : Int) :
    torusCol n i o = torusCol n i (o % (n : Int)) := by
  unfold torusCol
  rw [Int.add_emod (i : Int) o, Int.add_emod (i : Int) (o % (n : Int)),
    Int.emod_emod_of_dvd o (dvd_refl _)]

/-- Composing two diagonal shifts commutes (both equal the shift by the sum
of the offsets). -/
theorem torusCol_comm (n : Nat) (hn : 0 < n) (i : Nat) (o o' : Int) :
    torusCol n (torusCol n i o) o' = torusCol n (torusCol n i o') o := by
  have hne : (n : Int) ≠ 0 := by
    exact_mod_cast Nat.pos_iff_ne_zero.mp hn
  have hcast : ∀ x : Int, ((((i : Int) + x) % (n : Int)).toNat : Int)
      = ((i : Int) + x) % (n : Int) :=
    fun x => Int.toNat_of_nonneg (Int.emod_nonneg _ hne)
  unfold torusCol
  rw [hcast o, hcast o', Int.emod_add_emod, Int.emod_add_emod]
  have : (i : Int) + o + o' = (i : Int) + o' + o := by ring
  rw [this]

/-- Every row `i < n` of the torus matrix stores as many entries as there
are distinct offset residues modulo `n`; in particular the count does not
depend on `i`. -/
theorem torus_rowNnz_eq (dim n_axis : Nat) (hna : 1 ≤ n_axis) (i : Nat)
    (hi : i < n_axis ^ dim) :
    (generate_torus_matrix dim n_axis).rowNnz i
      = (((torus_col_offsets dim n_axis).map
          (fun o => o % ((n_axis ^ dim : Nat) : Int))).toFinset).card := by
  have hn : 0 < n_axis ^ dim := pow_pos hna dim
  have hnZ : (0 : Int) < ((n_axis ^ dim : Nat) : Int) := by
    exact_mod_cast hn
  have hne : ((n_axis ^ dim : Nat) : Int) ≠ 0 := by omega
  -- reduce the row count to a filtered support count
  show ((((torus_triples dim n_axis).map Prod.fst).dedup.map
      (fun q => (q, cooValue (torus_triples dim n_axis) q))).filter
        (fun e => e.1.1 == i)).length = _
  rw [List.filter_map, List.length_map]
  have hgoal1 : (((torus_triples dim n_axis).map Prod.fst).dedup.filter
      (fun q => q.1 == i)).length
      = ((((torus_triples dim n_axis).map Prod.fst).dedup.filter
          (fun q => q.1 == i)).toFinset).card := by
    rw [List.card_toFinset,
      List.Nodup.dedup ((List.nodup_dedup _).filter _)]
  show (((torus_triples dim n_axis).map Prod.fst).dedup.filter
      (fun q => q.1 == i)).length = _
  rw [hgoal1, List.toFinset_filter]
  have hDset : (((torus_triples dim n_axis).map Prod.fst).dedup).toFinset
      = ((torus_triples dim n_axis).map Prod.fst).toFinset :=
    List.toFinset.ext (fun x => List.mem_dedup)
  rw [hDset]
  -- identify the filtered support with the image of the row's column set
  have hset : (((torus_triples dim n_axis).map Prod.fst).toFinset.filter
      (fun q => (q.1 == i) = true))
      = (((torus_col_offsets dim n_axis).map
          (fun o => torusCol (n_axis ^ dim) i o)).toFinset).image
          (fun j => ((i, j) : Nat × Nat)) := by
    ext q
    rw [Finset.mem_filter, List.mem_toFinset, Finset.mem_image]
    constructor
    · rintro ⟨hsup, hq1⟩
      have hq1' : q.1 = i := by
        rwa [beq_iff_eq] at hq1
      have hchar : (q.1, q.2) ∈ (generate_torus_matrix dim n_axis).coords := by
        rw [generate_torus_matrix]
        rw [mem_cscFromCOO_coords]
        exact hsup
      rw [generate_torus_matrix_coords_mem] at hchar
      obtain ⟨_, o, ho, hcol⟩ := hchar
      refine ⟨q.2, ?_, ?_⟩
      · rw [List.mem_toFinset, List.mem_map]
        exact ⟨o, ho, by rw [← hq1']; exact hcol⟩
      · exact Prod.ext hq1'.symm rfl
    · rintro ⟨j, hj, heq⟩
      rw [List.mem_toFinset, List.mem_map] at hj
      obtain ⟨o, ho, hcol⟩ := hj
      have hq : q = (i, j) := heq.symm
      subst hq
      constructor
      · have hchar : ((i, j) : Nat × Nat)
            ∈ (generate_torus_matrix dim n_axis).coords := by
          rw [generate_torus_matrix_coords_mem]
          exact ⟨hi, o, ho, hcol⟩
        rw [generate_torus_matrix, mem_cscFromCOO_coords] at hchar
        exact hchar
      · exact beq_self_eq_true i
  rw [hset, Finset.card_image_of_injective _
    (fun a b hab => congrArg Prod.snd hab)]
  -- the column set is the injective image of the residue set
  have hmapeq : ((torus_col_offsets dim n_axis).map
      (fun o => torusCol (n_axis ^ dim) i o))
      = (((torus_col_offsets dim n_axis).map
          (fun o => o % ((n_axis ^ dim : Nat) : Int))).map
          (fun r => torusCol (n_axis ^ dim) i r)) := by
    rw [List.map_map]
    exact List.map_congr_left (fun o _ => torusCol_emod _ i o)
  rw [hmapeq, list_toFinset_map]
  apply Finset.card_image_of_injOn
  intro r1 h1 r2 h2 heq
  have hres : ∀ r ∈ ((torus_col_offsets dim n_axis).map
      (fun o => o % ((n_axis ^ dim : Nat) : Int))).toFinset,
      0 ≤ r ∧ r < ((n_axis ^ dim : Nat) : Int)
        ∧ r % ((n_axis ^ dim : Nat) : Int) = r := by
    intro r hr
    rw [List.mem_toFinset, List.mem_map] at hr
    obtain ⟨o, _, rfl⟩ := hr
    exact ⟨Int.emod_nonneg _ hne, Int.emod_lt_of_pos _ hnZ,
      Int.emod_emod_of_dvd _ (dvd_refl _)⟩
  obtain ⟨hr1a, hr1b, hr1c⟩ := hres r1 h1
  obtain ⟨hr2a, hr2b, hr2c⟩ := hres r2 h2
  have heqZ : ((i : Int) + r1) % ((n_axis ^ dim : Nat) : Int)
      = ((i : Int) + r2) % ((n_axis ^ dim : Nat) : Int) := by
    have h1' := Int.toNat_of_nonneg
      (Int.emod_nonneg ((i : Int) + r1) hne)
    have h2' := Int.toNat_of_nonneg
      (Int.emod_nonneg ((i : Int) + r2) hne)
    unfold torusCol at heq
    rw [← h1', ← h2']
    exact_mod_cast congrArg (fun x : Nat => (x : Int)) heq
  have hmod : r1 % ((n_axis ^ dim : Nat) : Int)
      = r2 % ((n_axis ^ dim : Nat) : Int) :=
    Int.ModEq.add_left_cancel (Int.ModEq.refl (i : Int)) heqZ
  rw [hr1c, hr2c] at hmod
  exact hmod

/-- C8: the torus matrix is square of shape `(n_axis^dim, n_axis^dim)`,
every row inside the shape stores the same number of entries, the stored
coordinate set is closed under shifting both components by any declared
offset modulo `n`, and concretely `dim = 2, n_axis = 3` yields a 9×9 matrix
with exactly 5 stored entries in every row. -/
theorem torus_matrix_row_regular (dim n_axis : Nat) (hna : 1 ≤ n_axis) :
    (generate_torus_matrix dim n_axis).shape = (n_axis ^ dim, n_axis ^ dim)
    ∧ (∀ i j, i < n_axis ^ dim → j < n_axis ^ dim →
        (generate_torus_matrix dim n_axis).rowNnz i
          = (generate_torus_matrix dim n_axis).rowNnz j)
    ∧ (∀ q ∈ (generate_torus_matrix dim n_axis).coords,
        ∀ o ∈ torus_col_offsets dim n_axis,
          ((torusCol (n_axis ^ dim) q.1 o, torusCol (n_axis ^ dim) q.2 o)
            : Nat × Nat) ∈ (generate_torus_matrix dim n_axis).coords)
    ∧ ((generate_torus_matrix 2 3).shape = (9, 9)
      ∧ ∀ r < 9, (generate_torus_matrix 2 3).rowNnz r = 5) := by
  refine ⟨rfl, ?_, ?_, by decide⟩
  · intro i j hi hj
    rw [torus_rowNnz_eq dim n_axis hna i hi,
      torus_rowNnz_eq dim n_axis hna j hj]
  · intro q hq o ho
    have hn : 0 < n_axis ^ dim := pow_pos hna dim
    obtain ⟨hq1, o', ho', hcol⟩ :=
      (generate_torus_matrix_coords_mem dim n_axis q.1 q.2).mp hq
    rw [generate_torus_matrix_coords_mem]
    refine ⟨torusCol_lt _ hn _ _, o', ho', ?_⟩
    rw [← hcol]
    exact torusCol_comm _ hn _ o o'

/-- Witness for C8 at `dim = 1, n_axis = 2`. -/
theorem torus_matrix_row_regular_witness :
    (1 ≤ 2)
    ∧ ((generate_torus_matrix 1 2).shape = (2 ^ 1, 2 ^ 1)
      ∧ (∀ i j, i < 2 ^ 1 → j < 2 ^ 1 →
          (generate_torus_matrix 1 2).rowNnz i
            = (generate_torus_matrix 1 2).rowNnz j)
      ∧ (∀ q ∈ (generate_torus_matrix 1 2).coords,
          ∀ o ∈ torus_col_offsets 1 2,
            ((torusCol (2 ^ 1) q.1 o, torusCol (2 ^ 1) q.2 o) : Nat × Nat)
              ∈ (generate_torus_matrix 1 2).coords)
      ∧ ((generate_torus_matrix 2 3).shape = (9, 9)
        ∧ ∀ r < 9, (generate_torus_matrix 2 3).rowNnz r = 5)) :=
  ⟨by decide, torus_matrix_row_regular 1 2 (by decide)⟩

/-! ### Claim C9 -/

theorem flatMap_perm_congr {α β : Type} (l : List α) (f g : α → List β)
    (h : ∀ a ∈ l, (f a).Perm (g a)) : (l.flatMap f).Perm (l.flatMap g) := by
  induction l with
  | nil => exact List.Perm.refl _
  | cons a t ih =>
      rw [List.flatMap_cons, List.flatMap_cons]
      exact List.Perm.append (h a (List.mem_cons_self a t))
        (ih (fun b hb => h b (List.mem_cons_of_mem a hb)))

/-- The code's offset list is closed under negation (as a multiset): `0` is
self-negating and the other offsets come in `±` pairs. -/
theorem torus_offsets_neg_perm (dim n_axis : Nat) :
    ((torus_col_offsets dim n_axis).map (fun o => -o)).Perm
      (torus_col_offsets dim n_axis) := by
  unfold torus_col_offsets
  by_cases h : dim = 0
  · rw [if_pos h]
    simp
  · rw [if_neg h, List.map_append]
    refine List.Perm.append ?_ ?_
    · rw [show List.map (fun o => -o) ([0, 1, -1] : List Int)
        = [0, -1, 1] from by norm_num]
      exact List.Perm.cons 0 (List.Perm.swap 1 (-1) [])
    · rw [List.map_flatMap]
      apply flatMap_perm_congr
      intro d _
      rw [show List.map (fun o => -o)
          [((n_axis : Int) ^ d - 1), -((n_axis : Int) ^ d - 1)]
          = [-((n_axis : Int) ^ d - 1), ((n_axis : Int) ^ d - 1)] from by
        norm_num]
      exact List.Perm.swap _ _ []

/-- For a column index in range, hitting it means a modular congruence. -/
theorem torusCol_eq_iff (n : Nat) (hn : 0 < n) (i j : Nat) (hj : j < n)
    (o : Int) :
    torusCol n i o = j ↔ ((i : Int) + o) % (n : Int) = (j : Int) := by
  have hne : (n : Int) ≠ 0 := by
    exact_mod_cast Nat.pos_iff_ne_zero.mp hn
  unfold torusCol
  constructor
  · intro h
    rw [← h, Int.toNat_of_nonneg (Int.emod_nonneg _ hne)]
  · intro h
    rw [h]
    exact Int.toNat_natCast j

/-- Counting offsets that send row `i` to column `j` is symmetric in `i` and
`j`, because the offset list is negation-closed. -/
theorem torus_countP_symm (dim n_axis : Nat) (hna : 1 ≤ n_axis) (i j : Nat)
    (hi : i < n_axis ^ dim) (hj : j < n_axis ^ dim) :
    (torus_col_offsets dim n_axis).countP
        (fun o => torusCol (n_axis ^ dim) i o == j)
      = (torus_col_offsets dim n_axis).countP
        (fun o => torusCol (n_axis ^ dim) j o == i) := by
  have hn : 0 < n_axis ^ dim := pow_pos hna dim
  have hiZ : ((i : Nat) : Int) < ((n_axis ^ dim : Nat) : Int) := by
    exact_mod_cast hi
  have hjZ : ((j : Nat) : Int) < ((n_axis ^ dim : Nat) : Int) := by
    exact_mod_cast hj
  have hstep1 : (torus_col_offsets dim n_axis).countP
      (fun o => torusCol (n_axis ^ dim) j o == i)
      = (torus_col_offsets dim n_axis).countP
        ((fun o => torusCol (n_axis ^ dim) i o == j) ∘ (fun o => -o)) := by
    apply List.countP_congr
    intro o _
    show (torusCol (n_axis ^ dim) j o == i) = true
      ↔ (torusCol (n_axis ^ dim) i (-o) == j) = true
    rw [beq_iff_eq, beq_iff_eq,
      torusCol_eq_iff _ hn j i hi o, torusCol_eq_iff _ hn i j hj (-o)]
    constructor
    · intro h
      rw [← h, Int.emod_add_emod,
        show (j : Int) + o + -o = (j : Int) from by ring]
      exact Int.emod_eq_of_lt (by positivity) hjZ
    · intro h
      rw [← h, Int.emod_add_emod,
        show (i : Int) + -o + o = (i : Int) from by ring]
      exact Int.emod_eq_of_lt (by positivity) hiZ
  rw [hstep1, ← List.countP_map,
    (torus_offsets_neg_perm dim n_axis).countP_eq]

/-- C9: the torus matrix is square of shape `(n_axis^dim, n_axis^dim)` and
equals its own transpose entrywise: the value at `(i, j)` always equals the
value at `(j, i)`. -/
theorem torus_matrix_symmetric (dim n_axis : Nat) (hna : 1 ≤ n_axis) :
    (generate_torus_matrix dim n_axis).shape = (n_axis ^ dim, n_axis ^ dim)
    ∧ ∀ i j, (generate_torus_matrix dim n_axis).toFun i j
        = (generate_torus_matrix dim n_axis).toFun j i := by
  have hn : 0 < n_axis ^ dim := pow_pos hna dim
  refine ⟨rfl, ?_⟩
  intro i j
  rw [generate_torus_matrix_toFun, generate_torus_matrix_toFun]
  by_cases hi : i < n_axis ^ dim <;> by_cases hj : j < n_axis ^ dim
  · rw [if_pos hi, if_pos hj]
    exact_mod_cast congrArg (fun x : Nat => (x : Int))
      (torus_countP_symm dim n_axis hna i j hi hj)
  · rw [if_pos hi, if_neg hj]
    have hz : (torus_col_offsets dim n_axis).countP
        (fun o => torusCol (n_axis ^ dim) i o == j) = 0 := by
      apply List.countP_eq_zero.mpr
      intro o _
      intro hcon
      exact hj (beq_iff_eq.mp hcon ▸ torusCol_lt _ hn i o)
    rw [hz]
    simp
  · rw [if_neg hi, if_pos hj]
    have hz : (torus_col_offsets dim n_axis).countP
        (fun o => torusCol (n_axis ^ dim) j o == i) = 0 := by
      apply List.countP_eq_zero.mpr
      intro o _
      intro hcon
      exact hi (beq_iff_eq.mp hcon ▸ torusCol_lt _ hn j o)
    rw [hz]
    simp
  · rw [if_neg hi, if_neg hj]

/-- Witness for C9 at `dim = 2, n_axis = 3`. -/
theorem torus_matrix_symmetric_witness :
    (1 ≤ 3)
    ∧ ((generate_torus_matrix 2 3).shape = (3 ^ 2, 3 ^ 2)
      ∧ ∀ i j, (generate_torus_matrix 2 3).toFun i j
          = (generate_torus_matrix 2 3).toFun j i) :=
  ⟨by decide, torus_matrix_symmetric 2 3 (by decide)⟩
